import Mathlib

/-!
# The `/compress` handler of the file compressor backend (`src/index.js`)

A shallow embedding of the request handler `app.post("/compress", ...)`:

* the entry-name rewrite `originalname.replace(/\.\w+$/, ".webp")`;
* the JSZip accumulator `zip.file(name, data)`;
* the two directories `UPLOAD_DIR` and `OUTPUT_DIR` as explicit state;
* the handler itself, with the empty check, the single branch, the bulk loop
  with its inner `try`/`catch`, and the outer `catch`.

The external collaborators (sharp, `fs.unlinkSync`, `uuidv4`, the request's
protocol and host) are parameters of the model, gathered in `Env`. Sharp may
reject an upload and `fs.unlinkSync` may throw; `zip.generateAsync` and the
writes to `OUTPUT_DIR` are taken to succeed, and `toFile` to write its output
only when the transcode succeeds.
-/

namespace Compressor

/-- Contents of a file or buffer. -/
abbrev Bytes := List Nat

/-! ## The rewrite `originalname.replace(/\.\w+$/, ".webp")` -/

/-- The class `\w` of a JavaScript regular expression without the `u` and `i`
flags: ASCII letters, ASCII digits and the underscore. -/
def isWordChar (c : Char) : Bool :=
  c.isAlphanum || c == '_'

/-- The tail `\w+$` of the pattern, tried at the start of the given input: one
word character, then either the end of the input or the same again. -/
def wordsThenEnd : List Char → Bool
  | [] => false
  | c :: cs => isWordChar c && (cs.isEmpty || wordsThenEnd cs)

/-- The result of `s.replace(/\.\w+$/, ".webp")` on the characters of `s`. The pattern
has no `g` flag, so the leftmost match is replaced: start positions are tried
from the left, and a match (a dot followed by `\w+$`) always extends to the end
of the input, so the replacement text ends the result. The replacement text
`.webp` has no `$` in it and is inserted literally. -/
def replaceExt : List Char → List Char
  | [] => []
  | c :: cs => if c == '.' && wordsThenEnd cs then ".webp".data else c :: replaceExt cs

/-- The archive entry name of line 73: `file.originalname.replace(/\.\w+$/, ".webp")`. -/
def entryName (originalname : String) : String :=
  ⟨replaceExt originalname.data⟩

/-! ## JSZip and the file system -/

/-- Assignment `obj[key] = value` on a keyed collection kept in insertion order:
an existing key keeps its place and gets the new value, a new key is appended. -/
def assign {α : Type} : List (String × α) → String → α → List (String × α)
  | [], key, value => [(key, value)]
  | (k, v) :: rest, key, value =>
    if k = key then (key, value) :: rest else (k, v) :: assign rest key value

/-- The file entries of a `JSZip` instance, by entry name. -/
abbrev Zip := List (String × Bytes)

/-- The call `zip.file(name, data)`: JSZip stores the entry under `name` in its `files`
object, replacing an entry already stored under that name. Only file entries are kept
here: multer gives `originalname` without directory part, so no folder entry arises.
The list is a keyed collection: the order in which JSZip enumerates the entries (names
that look like array indices come first) is not modelled, nor that `generateAsync`
leaves out an entry whose name is empty, which multer does not produce. -/
def zipFile (zip : Zip) (name : String) (data : Bytes) : Zip :=
  assign zip name data

/-- An object of `OUTPUT_DIR`: a transcoded image written by `toFile`, or the
archive produced by `zip.generateAsync` and written by `fs.writeFileSync`. -/
inductive Stored where
  | image (bytes : Bytes)
  | archive (entries : Zip)
  deriving DecidableEq, Repr

/-- The two directories the handler touches. -/
structure Fs where
  /-- Content of `UPLOAD_DIR`: temporary path and content of each upload present. -/
  uploads : List (String × Bytes)
  /-- Content of `OUTPUT_DIR`: name and content of each object. -/
  outputs : List (String × Stored)
  deriving DecidableEq, Repr

/-- A record of `req.files`: multer's temporary path and the client's file name. -/
structure UploadedFile where
  path : String
  originalname : String
  deriving DecidableEq, Repr

/-- The collaborators of one request. -/
structure Env where
  /-- The sharp pipeline `.resize(1600).webp(75)` on the content of a file:
  `none` when sharp rejects. -/
  decode : Bytes → Option Bytes
  /-- Paths that `fs.unlinkSync` refuses to delete although the file exists. -/
  unlinkDenied : String → Bool
  /-- The identifier that `uuidv4()` returns in this request. -/
  uuid : String
  /-- `req.protocol`. -/
  protocol : String
  /-- `req.get("host")`. -/
  host : String

/-- What the handler did, in order: instrumentation of the model. -/
inductive Event where
  /-- Sharp was invoked on the upload `file`; `result` is what it produced. -/
  | sharp (file : UploadedFile) (result : Option Bytes)
  /-- An object was written to `OUTPUT_DIR` under `name`. -/
  | write (name : String)
  /-- The call `fs.unlinkSync(path)` was made; `ok` is false when it threw. -/
  | unlink (path : String) (ok : Bool)
  /-- The `console.log` of the inner `catch`. -/
  | log (originalname : String)
  deriving DecidableEq, Repr

/-- The call `sharp(path)...`: reads the file at `path` and transcodes its content; rejects
when the file is absent or sharp cannot decode it. -/
def sharp (env : Env) (fs : Fs) (path : String) : Option Bytes :=
  (fs.uploads.lookup path).bind env.decode

/-- Whether a temporary path exists in `UPLOAD_DIR`. -/
def existsSync (fs : Fs) (path : String) : Bool :=
  (fs.uploads.lookup path).isSome

/-- The call `fs.unlinkSync(path)`: `none` when it throws (no such file, or deletion
refused), otherwise the file system without the file. -/
def unlinkSync (env : Env) (fs : Fs) (path : String) : Option Fs :=
  if existsSync fs path && !env.unlinkDenied path then
    some { fs with uploads := fs.uploads.filter (fun e => e.1 != path) }
  else none

/-- Writing an object under `name` in `OUTPUT_DIR` (by `toFile` or `fs.writeFileSync`);
an object already there under that name is replaced. -/
def writeOutput (fs : Fs) (name : String) (content : Stored) : Fs :=
  { fs with outputs := assign fs.outputs name content }

/-! ## The handler -/

/-- Body of a JSON response. -/
inductive Body where
  /-- The body `{ error }`. -/
  | error (error : String)
  /-- The body `{ type, url }`. -/
  | descriptor (type : String) (url : String)
  deriving DecidableEq, Repr

/-- A response: HTTP status (200 when `res.json` is called without `res.status`) and body. -/
structure Response where
  status : Nat
  body : Body
  deriving DecidableEq, Repr

/-- The url template `${req.protocol}://${req.get("host")}/files/${name}`. -/
def fileUrl (env : Env) (name : String) : String :=
  env.protocol ++ "://" ++ env.host ++ "/files/" ++ name

/-- State of the bulk loop: the archive, the file system, and the events so far. -/
structure LoopState where
  zip : Zip
  fs : Fs
  trace : List Event

/-- One iteration of `for (const file of files)` (lines 66 to 79): the body of the inner
`try`, and the inner `catch` that logs and lets the loop go on. -/
def bulkStep (env : Env) (st : LoopState) (file : UploadedFile) : LoopState :=
  match sharp env st.fs file.path with
  | none =>
    { st with trace := st.trace ++ [Event.sharp file none, Event.log file.originalname] }
  | some buffer =>
    let zip := zipFile st.zip (entryName file.originalname) buffer
    match unlinkSync env st.fs file.path with
    | some fs =>
      { zip := zip, fs := fs,
        trace := st.trace ++ [Event.sharp file (some buffer), Event.unlink file.path true] }
    | none =>
      { zip := zip, fs := st.fs,
        trace := st.trace ++ [Event.sharp file (some buffer), Event.unlink file.path false,
          Event.log file.originalname] }

/-- The loop `for (const file of files) { ... }`. -/
def bulkLoop (env : Env) : List UploadedFile → LoopState → LoopState
  | [], st => st
  | file :: rest, st => bulkLoop env rest (bulkStep env st file)

/-- Outcome of one request: the response, the file system afterwards, and what was done. -/
structure Outcome where
  response : Response
  fs : Fs
  trace : List Event

/-- The response of the outer `catch`: status 500, `{ error: "Server error" }`. -/
def serverError : Response :=
  ⟨500, Body.error "Server error"⟩

/-- The bulk branch (lines 63 to 91): the loop, then the archive written under a fresh name. -/
def compressBulk (env : Env) (fs : Fs) (files : List UploadedFile) : Outcome :=
  let st := bulkLoop env files { zip := [], fs := fs, trace := [] }
  let zipName := env.uuid ++ ".zip"
  { response := ⟨200, Body.descriptor "bulk" (fileUrl env zipName)⟩,
    fs := writeOutput st.fs zipName (Stored.archive st.zip),
    trace := st.trace ++ [Event.write zipName] }

/-- The single branch (lines 43 to 61). A rejection of sharp and a throw of `fs.unlinkSync`
both reach the outer `catch`; `toFile` writes the output only when the transcode succeeds. -/
def compressSingle (env : Env) (fs : Fs) (file : UploadedFile) : Outcome :=
  let newName := env.uuid ++ ".webp"
  match sharp env fs file.path with
  | none => { response := serverError, fs := fs, trace := [Event.sharp file none] }
  | some out =>
    let fs1 := writeOutput fs newName (Stored.image out)
    match unlinkSync env fs1 file.path with
    | none =>
      { response := serverError, fs := fs1,
        trace := [Event.sharp file (some out), Event.write newName,
          Event.unlink file.path false] }
    | some fs2 =>
      { response := ⟨200, Body.descriptor "single" (fileUrl env newName)⟩, fs := fs2,
        trace := [Event.sharp file (some out), Event.write newName,
          Event.unlink file.path true] }

/-- The handler of `POST /compress`; `files` is `req.files`, `none` when it is absent. -/
def compress (env : Env) (fs : Fs) (files : Option (List UploadedFile)) : Outcome :=
  match files with
  | none => { response := ⟨400, Body.error "No files uploaded"⟩, fs := fs, trace := [] }
  | some [] => { response := ⟨400, Body.error "No files uploaded"⟩, fs := fs, trace := [] }
  | some [file] => compressSingle env fs file
  | some (file :: next :: rest) => compressBulk env fs (file :: next :: rest)

/-! ## Reading the trace -/

/-- The uploads sharp was invoked on, in order. -/
def attempted : List Event → List UploadedFile
  | [] => []
  | Event.sharp file _ :: rest => file :: attempted rest
  | _ :: rest => attempted rest

/-- The uploads sharp transcoded successfully, in order, each with its output. -/
def succeeded : List Event → List (UploadedFile × Bytes)
  | [] => []
  | Event.sharp file (some out) :: rest => (file, out) :: succeeded rest
  | _ :: rest => succeeded rest

/-- The names written to `OUTPUT_DIR`, in order. -/
def written : List Event → List String
  | [] => []
  | Event.write name :: rest => name :: written rest
  | _ :: rest => written rest

/-- The archive stored under `name` in `OUTPUT_DIR`, if there is one. -/
def archiveAt (fs : Fs) (name : String) : Option Zip :=
  match fs.outputs.lookup name with
  | some (Stored.archive entries) => some entries
  | _ => none

/-- The output of the last successful upload, in input order, whose entry name is `name`. -/
def lastSuccess (successes : List (UploadedFile × Bytes)) (name : String) : Option Bytes :=
  (successes.reverse.find? (fun s => entryName s.1.originalname == name)).map (fun s => s.2)

/-- The archive obtained from `zip` by the calls `zip.file(entryName, output)` for the given
successes, in order. -/
def addAll (zip : Zip) (successes : List (UploadedFile × Bytes)) : Zip :=
  successes.foldl (fun z s => zipFile z (entryName s.1.originalname) s.2) zip

/-- The calls of sharp, in order: the upload and what sharp returned for it. -/
def sharpCalls : List Event → List (UploadedFile × Option Bytes)
  | [] => []
  | Event.sharp file result :: rest => (file, result) :: sharpCalls rest
  | _ :: rest => sharpCalls rest

/-- Whether the temporary file at `path` has been deleted by the time the loop has gone
through the uploads `before`: one of them has this path, sharp accepts the content that
was at this path when the request came in, and the deletion is not refused. -/
def deletedBy (env : Env) (fs : Fs) (before : List UploadedFile) (path : String) : Bool :=
  before.any (fun g => g.path == path && (sharp env fs g.path).isSome &&
    !env.unlinkDenied g.path)

/-- What sharp returns for the upload `f` of a bulk request that came in with directories
`fs`, when the loop reaches `f` after the uploads `before`: a rejection when the temporary
file has been deleted since, otherwise what sharp makes of the file as it came in. -/
def sharpAt (env : Env) (fs : Fs) (before : List UploadedFile) (f : UploadedFile) :
    Option Bytes :=
  if deletedBy env fs before f.path then none else sharp env fs f.path

/-- Every upload of the list with what sharp returns for it when the loop reaches it. -/
def outcomes (env : Env) (fs : Fs) :
    List UploadedFile → List UploadedFile → List (UploadedFile × Option Bytes)
  | _, [] => []
  | before, f :: rest => (f, sharpAt env fs before f) :: outcomes env fs (before ++ [f]) rest

/-- The output of sharp when it accepts, paired with the upload. -/
def accept (o : UploadedFile × Option Bytes) : Option (UploadedFile × Bytes) :=
  o.2.map (fun out => (o.1, out))

/-- The uploads of a bulk request that sharp transcodes successfully, in input order,
each with the output of sharp. -/
def accepted (env : Env) (fs : Fs) (files : List UploadedFile) : List (UploadedFile × Bytes) :=
  (outcomes env fs [] files).filterMap accept

/-- The upload directory in the loop, after the uploads `before`, is the directory of the
incoming request without the files deleted since. -/
def UploadsAfter (env : Env) (fs : Fs) (before : List UploadedFile) (st : LoopState) : Prop :=
  ∀ p, st.fs.uploads.lookup p =
    if deletedBy env fs before p = true then none else fs.uploads.lookup p

/-- The class `[A-Za-z0-9_]`, written out by ranges. -/
def inExtClass (c : Char) : Prop :=
  ('A' ≤ c ∧ c ≤ 'Z') ∨ ('a' ≤ c ∧ c ≤ 'z') ∨ ('0' ≤ c ∧ c ≤ '9') ∨ c = '_'

/-- The name has the form `stem + "." + ext` with `ext` a non-empty run of characters of
`[A-Za-z0-9_]` that reaches the end of the name. -/
def HasWordExt (s : String) : Prop :=
  ∃ stem ext : String, s = stem ++ "." ++ ext ∧ ext ≠ "" ∧ ∀ c ∈ ext.data, inExtClass c

instance : DecidablePred inExtClass := fun c => by
  unfold inExtClass; exact inferInstance

/-- Whether `ext` is a non-empty run of characters of `[A-Za-z0-9_]`. -/
def isExtRun (ext : List Char) : Bool :=
  !ext.isEmpty && ext.all (fun c => decide (inExtClass c))

/-- Reference definition of the rewrite, in the words of the claim: when the name can be cut
into a stem, a dot and a non-empty run of characters of `[A-Za-z0-9_]` that reaches the end
of the name, the result is the stem followed by `.webp`; otherwise it is the name. -/
def referenceRewrite (s : String) : String :=
  match (List.range s.data.length).find?
      (fun i => s.data[i]? == some '.' && isExtRun (s.data.drop (i + 1))) with
  | some i => ⟨s.data.take i⟩ ++ ".webp"
  | none => s

/-! ## Sample requests -/

/-- A sharp that accepts every content but the empty one and returns it reversed. -/
def sampleDecode (b : Bytes) : Option Bytes :=
  if b = [] then none else some b.reverse

/-- A request environment in which every deletion is allowed. -/
def sampleEnv : Env :=
  { decode := sampleDecode, unlinkDenied := fun _ => false, uuid := "id",
    protocol := "http", host := "h" }

/-- The same environment, except that no deletion is allowed. -/
def deniedEnv : Env :=
  { sampleEnv with unlinkDenied := fun _ => true }

/-- A decodable upload named `photo.png`. -/
def goodA : UploadedFile := ⟨"uploads/1-photo.png", "photo.png"⟩

/-- A second decodable upload named `photo.png`, from another source. -/
def goodB : UploadedFile := ⟨"uploads/2-photo.png", "photo.png"⟩

/-- An upload that sharp rejects. -/
def corruptA : UploadedFile := ⟨"uploads/3-a.png", "a.png"⟩

/-- Another upload that sharp rejects. -/
def corruptB : UploadedFile := ⟨"uploads/4-b.jpg", "b.jpg"⟩

/-- A decodable upload whose name has no extension. -/
def noExt : UploadedFile := ⟨"uploads/5-photo", "photo"⟩

/-- Directories holding the five sample uploads and one earlier output. -/
def sampleFs : Fs :=
  { uploads := [(goodA.path, [1, 2]), (goodB.path, [3, 4]), (corruptA.path, []),
      (corruptB.path, []), (noExt.path, [5])],
    outputs := [("old.webp", Stored.image [9])] }

/-! ## The rewrite: lemmas -/

theorem isWordChar_iff (c : Char) : isWordChar c = true ↔ inExtClass c := by
  simp only [isWordChar, Char.isAlphanum, Char.isAlpha, Char.isUpper, Char.isLower,
    Char.isDigit, inExtClass, Bool.or_eq_true, Bool.and_eq_true, decide_eq_true_eq,
    beq_iff_eq, Char.le_def]
  have hA : ('A' : Char).val = 65 := rfl
  have hZ : ('Z' : Char).val = 90 := rfl
  have ha : ('a' : Char).val = 97 := rfl
  have hz : ('z' : Char).val = 122 := rfl
  have h0 : ('0' : Char).val = 48 := rfl
  have h9 : ('9' : Char).val = 57 := rfl
  rw [hA, hZ, ha, hz, h0, h9]
  tauto

theorem dot_not_word : isWordChar '.' = false := by decide

theorem wordsThenEnd_iff (l : List Char) :
    wordsThenEnd l = true ↔ l ≠ [] ∧ ∀ c ∈ l, isWordChar c = true := by
  induction l with
  | nil => simp [wordsThenEnd]
  | cons c cs ih =>
    simp only [wordsThenEnd, Bool.and_eq_true, Bool.or_eq_true, ih, List.isEmpty_iff,
      ne_eq, reduceCtorEq, not_false_eq_true, List.mem_cons, forall_eq_or_imp, true_and]
    constructor
    · rintro ⟨hc, h | h⟩
      · subst h; simp [hc]
      · exact ⟨hc, h.2⟩
    · rintro ⟨hc, h⟩
      refine ⟨hc, ?_⟩
      by_cases hcs : cs = []
      · exact Or.inl hcs
      · exact Or.inr ⟨hcs, h⟩

theorem wordsThenEnd_dot (stem ext : List Char) : wordsThenEnd (stem ++ '.' :: ext) = false := by
  rw [Bool.eq_false_iff]
  intro h
  have := ((wordsThenEnd_iff _).1 h).2 '.' (by simp)
  simp [dot_not_word] at this

theorem replaceExt_stem_ext (stem ext : List Char) (h : wordsThenEnd ext = true) :
    replaceExt (stem ++ '.' :: ext) = stem ++ ".webp".data := by
  induction stem with
  | nil => simp [replaceExt, h]
  | cons c cs ih =>
    show replaceExt (c :: (cs ++ '.' :: ext)) = c :: (cs ++ ".webp".data)
    simp only [replaceExt, wordsThenEnd_dot, Bool.and_false, Bool.false_eq_true, if_false, ih]

theorem replaceExt_cases (l : List Char) :
    (∃ stem ext, l = stem ++ '.' :: ext ∧ wordsThenEnd ext = true) ∨
      ((¬ ∃ stem ext, l = stem ++ '.' :: ext ∧ wordsThenEnd ext = true) ∧ replaceExt l = l) := by
  induction l with
  | nil => right; simp [replaceExt]
  | cons c cs ih =>
    by_cases hc : (c == '.' && wordsThenEnd cs) = true
    · left
      simp only [Bool.and_eq_true, beq_iff_eq] at hc
      exact ⟨[], cs, by simp [hc.1], hc.2⟩
    · rcases ih with ⟨stem, ext, hl, hw⟩ | ⟨hno, hself⟩
      · left; exact ⟨c :: stem, ext, by simp [hl], hw⟩
      · right
        refine ⟨?_, by simp [replaceExt, hc, hself]⟩
        rintro ⟨stem, ext, hl, hw⟩
        cases stem with
        | nil =>
          simp only [List.nil_append, List.cons.injEq] at hl
          apply hc; simp [hl.1, hl.2, hw]
        | cons d stem =>
          simp only [List.cons_append, List.cons.injEq] at hl
          exact hno ⟨stem, ext, hl.2, hw⟩

theorem replaceExt_idem (l : List Char) : replaceExt (replaceExt l) = replaceExt l := by
  rcases replaceExt_cases l with ⟨stem, ext, hl, hw⟩ | ⟨_, hself⟩
  · rw [hl, replaceExt_stem_ext stem ext hw]
    exact replaceExt_stem_ext stem "webp".data (by decide)
  · rw [hself, hself]


theorem data_ne_nil {s : String} (h : s ≠ "") : s.data ≠ [] := by
  intro hd
  apply h
  exact String.ext hd

theorem wordsThenEnd_of_ext {ext : String} (hne : ext ≠ "")
    (hall : ∀ c ∈ ext.data, inExtClass c) : wordsThenEnd ext.data = true :=
  (wordsThenEnd_iff _).2 ⟨data_ne_nil hne, fun c hc => (isWordChar_iff c).2 (hall c hc)⟩

theorem entryName_stem_ext (stem ext : String) (hne : ext ≠ "")
    (hall : ∀ c ∈ ext.data, inExtClass c) :
    entryName (stem ++ "." ++ ext) = stem ++ ".webp" := by
  apply String.ext
  have h := replaceExt_stem_ext stem.data ext.data (wordsThenEnd_of_ext hne hall)
  simpa [entryName, String.data_append] using h

theorem hasWordExt_iff (s : String) :
    HasWordExt s ↔ ∃ stem ext, s.data = stem ++ '.' :: ext ∧ wordsThenEnd ext = true := by
  constructor
  · rintro ⟨stem, ext, hs, hne, hall⟩
    exact ⟨stem.data, ext.data, by simp [hs, String.data_append],
      wordsThenEnd_of_ext hne hall⟩
  · rintro ⟨stem, ext, hs, hw⟩
    have hw2 := (wordsThenEnd_iff _).1 hw
    refine ⟨⟨stem⟩, ⟨ext⟩, ?_, ?_, ?_⟩
    · apply String.ext; simp [hs, String.data_append]
    · intro h; apply hw2.1; simpa using congrArg String.data h
    · intro c hc; exact (isWordChar_iff c).1 (hw2.2 c hc)

theorem entryName_of_not_hasWordExt (s : String) (h : ¬ HasWordExt s) : entryName s = s := by
  rcases replaceExt_cases s.data with hex | ⟨_, hself⟩
  · exact absurd ((hasWordExt_iff s).2 hex) h
  · apply String.ext; simpa [entryName] using hself

theorem entryName_idem (s : String) : entryName (entryName s) = entryName s := by
  apply String.ext
  simpa [entryName] using replaceExt_idem s.data

theorem entryName_suffix_iff (s : String) :
    ".webp".data <:+ (entryName s).data ↔ HasWordExt s := by
  constructor
  · intro hsuf
    by_contra hno
    rw [entryName_of_not_hasWordExt s hno] at hsuf
    obtain ⟨stem, hstem⟩ := hsuf
    exact hno ((hasWordExt_iff s).2 ⟨stem, "webp".data, hstem.symm, by decide⟩)
  · rintro ⟨stem, ext, hs, hne, hall⟩
    rw [hs, entryName_stem_ext stem ext hne hall]
    exact ⟨stem.data, by simp [String.data_append]⟩


/-! ## Keyed collections: lemmas -/

theorem lookup_cons_eq {α : Type} (k : String) (v : α) (rest : List (String × α)) :
    List.lookup k ((k, v) :: rest) = some v := by
  simp [List.lookup]

theorem lookup_cons_ne {α : Type} {k a : String} (h : ¬ k = a) (v : α)
    (rest : List (String × α)) : List.lookup k ((a, v) :: rest) = List.lookup k rest := by
  have hb : (k == a) = false := by simpa using h
  simp [List.lookup, hb]

theorem lookup_assign {α : Type} (l : List (String × α)) (k : String) (v : α) (k2 : String) :
    (assign l k v).lookup k2 = if k2 = k then some v else l.lookup k2 := by
  induction l with
  | nil =>
    by_cases h : k2 = k
    · subst h; simp [assign, lookup_cons_eq]
    · simp [assign, lookup_cons_ne h, h]
  | cons e rest ih =>
    obtain ⟨a, b⟩ := e
    by_cases hak : a = k
    · subst hak
      by_cases h : k2 = a
      · subst h; simp [assign, lookup_cons_eq]
      · simp [assign, lookup_cons_ne h, h]
    · by_cases h2 : k2 = a
      · subst h2
        simp [assign, hak, lookup_cons_eq]
      · simp [assign, hak, lookup_cons_ne h2, ih]

theorem keys_assign {α : Type} (l : List (String × α)) (k : String) (v : α) :
    (assign l k v).map Prod.fst =
      if k ∈ l.map Prod.fst then l.map Prod.fst else l.map Prod.fst ++ [k] := by
  induction l with
  | nil => simp [assign]
  | cons e rest ih =>
    obtain ⟨a, b⟩ := e
    by_cases hak : a = k
    · subst hak; simp [assign]
    · have hka : ¬ k = a := fun h => hak h.symm
      by_cases hm : k ∈ rest.map Prod.fst
      · simp only [assign, hak, if_false, List.map_cons, ih, hm, if_true, List.mem_cons,
          or_true]
      · simp only [assign, hak, if_false, List.map_cons, ih, hm, List.mem_cons, hka,
          or_self, List.cons_append]

theorem nodup_keys_assign {α : Type} (l : List (String × α)) (k : String) (v : α)
    (h : (l.map Prod.fst).Nodup) : ((assign l k v).map Prod.fst).Nodup := by
  rw [keys_assign]
  by_cases hm : k ∈ l.map Prod.fst
  · simp only [hm, if_true]; exact h
  · simp only [hm, if_false]
    exact List.Nodup.append h (List.nodup_singleton k) (by simpa using hm)

theorem mem_iff_lookup {α : Type} (l : List (String × α)) (h : (l.map Prod.fst).Nodup)
    (k : String) (v : α) : (k, v) ∈ l ↔ l.lookup k = some v := by
  induction l with
  | nil => simp [List.lookup]
  | cons e rest ih =>
    obtain ⟨a, b⟩ := e
    simp only [List.map_cons, List.nodup_cons] at h
    by_cases hka : k = a
    · subst hka
      have hnot : ∀ w, (k, w) ∉ rest := fun w hw => h.1 (List.mem_map_of_mem Prod.fst hw)
      rw [lookup_cons_eq]
      simp only [List.mem_cons, Prod.mk.injEq, true_and, hnot, or_false, Option.some.injEq]
      exact eq_comm
    · rw [lookup_cons_ne hka, ← ih h.2]
      simp [hka]

theorem mem_keys_iff_lookup {α : Type} (l : List (String × α)) (k : String) :
    k ∈ l.map Prod.fst ↔ (l.lookup k).isSome = true := by
  induction l with
  | nil => simp [List.lookup]
  | cons e rest ih =>
    obtain ⟨a, b⟩ := e
    by_cases hka : k = a
    · subst hka; simp [lookup_cons_eq]
    · rw [lookup_cons_ne hka, ← ih]
      simp [hka]


/-! ## The trace and the archive: lemmas -/

theorem attempted_append (a b : List Event) : attempted (a ++ b) = attempted a ++ attempted b := by
  induction a with
  | nil => rfl
  | cons e rest ih => cases e <;> simp [attempted, ih]

theorem succeeded_append (a b : List Event) : succeeded (a ++ b) = succeeded a ++ succeeded b := by
  induction a with
  | nil => rfl
  | cons e rest ih =>
    cases e with
    | sharp f r => cases r <;> simp [succeeded, ih]
    | write n => simp [succeeded, ih]
    | unlink p ok => simp [succeeded, ih]
    | log n => simp [succeeded, ih]

theorem written_append (a b : List Event) : written (a ++ b) = written a ++ written b := by
  induction a with
  | nil => rfl
  | cons e rest ih => cases e <;> simp [written, ih]

theorem addAll_append (z : Zip) (a b : List (UploadedFile × Bytes)) :
    addAll z (a ++ b) = addAll (addAll z a) b := by
  simp [addAll, List.foldl_append]

theorem addAll_snoc (z : Zip) (l : List (UploadedFile × Bytes)) (s : UploadedFile × Bytes) :
    addAll z (l ++ [s]) = zipFile (addAll z l) (entryName s.1.originalname) s.2 := by
  simp [addAll, List.foldl_append]

theorem lastSuccess_snoc (l : List (UploadedFile × Bytes)) (s : UploadedFile × Bytes)
    (n : String) :
    lastSuccess (l ++ [s]) n =
      if n = entryName s.1.originalname then some s.2 else lastSuccess l n := by
  by_cases h : n = entryName s.1.originalname
  · subst h; simp [lastSuccess, List.find?_cons]
  · have hb : (entryName s.1.originalname == n) = false := by
      simpa using fun h2 => h h2.symm
    simp [lastSuccess, List.find?_cons, hb, h]

theorem lookup_addAll (l : List (UploadedFile × Bytes)) (n : String) :
    (addAll [] l).lookup n = lastSuccess l n := by
  induction l using List.reverseRecOn with
  | nil => simp [addAll, lastSuccess, List.lookup]
  | append_singleton l s ih =>
    rw [addAll_snoc, lastSuccess_snoc, zipFile, lookup_assign, ih]

theorem nodup_keys_addAll (l : List (UploadedFile × Bytes)) :
    ((addAll [] l).map Prod.fst).Nodup := by
  induction l using List.reverseRecOn with
  | nil => simp [addAll]
  | append_singleton l s ih =>
    rw [addAll_snoc, zipFile]
    exact nodup_keys_assign _ _ _ ih

theorem lastSuccess_isSome (l : List (UploadedFile × Bytes)) (n : String) :
    (lastSuccess l n).isSome = true ↔ ∃ s ∈ l, entryName s.1.originalname = n := by
  simp [lastSuccess]

theorem mem_keys_addAll (l : List (UploadedFile × Bytes)) (n : String) :
    n ∈ (addAll [] l).map Prod.fst ↔ ∃ s ∈ l, entryName s.1.originalname = n := by
  rw [mem_keys_iff_lookup, lookup_addAll, lastSuccess_isSome]

theorem mem_addAll (l : List (UploadedFile × Bytes)) (n : String) (b : Bytes) :
    (n, b) ∈ addAll [] l ↔ lastSuccess l n = some b := by
  rw [mem_iff_lookup _ (nodup_keys_addAll l), lookup_addAll]

theorem length_addAll (l : List (UploadedFile × Bytes)) :
    (addAll [] l).length = ((l.map (fun s => entryName s.1.originalname)).dedup).length := by
  have hperm : List.Perm ((addAll [] l).map Prod.fst)
      (l.map (fun s => entryName s.1.originalname)).dedup := by
    rw [List.perm_ext_iff_of_nodup (nodup_keys_addAll l) (List.nodup_dedup _)]
    intro n
    rw [mem_keys_addAll, List.mem_dedup, List.mem_map]
  simpa using hperm.length_eq

/-! ## The bulk loop: lemmas -/

theorem unlinkSync_outputs {env : Env} {fs fs2 : Fs} {path : String}
    (h : unlinkSync env fs path = some fs2) : fs2.outputs = fs.outputs := by
  unfold unlinkSync at h
  split at h
  · cases h; rfl
  · cases h

theorem bulkStep_spec (env : Env) (st : LoopState) (file : UploadedFile) :
    ∃ evs, (bulkStep env st file).trace = st.trace ++ evs ∧ attempted evs = [file] ∧
      written evs = [] ∧ (bulkStep env st file).zip = addAll st.zip (succeeded evs) ∧
      (bulkStep env st file).fs.outputs = st.fs.outputs := by
  unfold bulkStep
  cases hs : sharp env st.fs file.path with
  | none =>
    exact ⟨_, rfl, rfl, rfl, rfl, rfl⟩
  | some buffer =>
    cases hu : unlinkSync env st.fs file.path with
    | none => exact ⟨_, rfl, rfl, rfl, rfl, rfl⟩
    | some fs2 => exact ⟨_, rfl, rfl, rfl, rfl, unlinkSync_outputs hu⟩

theorem bulkLoop_spec (env : Env) (files : List UploadedFile) (st : LoopState) :
    ∃ evs, (bulkLoop env files st).trace = st.trace ++ evs ∧ attempted evs = files ∧
      written evs = [] ∧ (bulkLoop env files st).zip = addAll st.zip (succeeded evs) ∧
      (bulkLoop env files st).fs.outputs = st.fs.outputs := by
  induction files generalizing st with
  | nil => exact ⟨[], by simp [bulkLoop], rfl, rfl, rfl, rfl⟩
  | cons f rest ih =>
    obtain ⟨e1, ht1, ha1, hw1, hz1, ho1⟩ := bulkStep_spec env st f
    obtain ⟨e2, ht2, ha2, hw2, hz2, ho2⟩ := ih (bulkStep env st f)
    refine ⟨e1 ++ e2, ?_, ?_, ?_, ?_, ?_⟩
    · simp [bulkLoop, ht2, ht1]
    · simp [attempted_append, ha1, ha2]
    · simp [written_append, hw1, hw2]
    · simp [bulkLoop, hz2, hz1, succeeded_append, addAll_append]
    · simp [bulkLoop, ho2, ho1]

theorem archiveAt_writeOutput (fs : Fs) (name : String) (zip : Zip) :
    archiveAt (writeOutput fs name (Stored.archive zip)) name = some zip := by
  simp [archiveAt, writeOutput, lookup_assign]

/-- What the bulk branch amounts to: the events of the loop, the archive they build, and
the one write after the loop. -/
theorem compressBulk_spec (env : Env) (fs : Fs) (files : List UploadedFile) :
    ∃ evs fs1, attempted evs = files ∧ written evs = [] ∧
      (compressBulk env fs files).trace = evs ++ [Event.write (env.uuid ++ ".zip")] ∧
      fs1.outputs = fs.outputs ∧
      (compressBulk env fs files).fs =
        writeOutput fs1 (env.uuid ++ ".zip") (Stored.archive (addAll [] (succeeded evs))) ∧
      (compressBulk env fs files).response =
        ⟨200, Body.descriptor "bulk" (fileUrl env (env.uuid ++ ".zip"))⟩ := by
  obtain ⟨evs, ht, ha, hw, hz, ho⟩ := bulkLoop_spec env files { zip := [], fs := fs, trace := [] }
  refine ⟨evs, (bulkLoop env files { zip := [], fs := fs, trace := [] }).fs, ha, hw, ?_, ho, ?_, rfl⟩
  · simp [compressBulk, ht]
  · simp [compressBulk, hz]


/-! ## The handler: lemmas -/

theorem bulkLoop_all_fail (env : Env) (files : List UploadedFile) (st : LoopState)
    (h : ∀ f ∈ files, sharp env st.fs f.path = none) :
    (bulkLoop env files st).zip = st.zip ∧ (bulkLoop env files st).fs = st.fs ∧
      succeeded (bulkLoop env files st).trace = succeeded st.trace ∧
      written (bulkLoop env files st).trace = written st.trace ∧
      attempted (bulkLoop env files st).trace = attempted st.trace ++ files := by
  induction files generalizing st with
  | nil => simp [bulkLoop]
  | cons f rest ih =>
    have hf : sharp env st.fs f.path = none := h f (List.mem_cons_self f rest)
    have hstep : bulkStep env st f =
        { st with trace := st.trace ++ [Event.sharp f none, Event.log f.originalname] } := by
      simp [bulkStep, hf]
    have hrest : ∀ g ∈ rest, sharp env (bulkStep env st f).fs g.path = none := by
      intro g hg
      rw [hstep]
      exact h g (List.mem_cons_of_mem f hg)
    obtain ⟨hz, hfs, hs, hw, ha⟩ := ih (bulkStep env st f) hrest
    simp only [bulkLoop, hz, hfs, hs, hw, ha]
    rw [hstep]
    simp [succeeded_append, written_append, attempted_append, succeeded, written, attempted]

theorem unlinkSync_writeOutput_outputs {env : Env} {fs fs2 : Fs} {name path : String}
    {content : Stored} (h : unlinkSync env (writeOutput fs name content) path = some fs2) :
    fs2.outputs = assign fs.outputs name content := by
  rw [unlinkSync_outputs h]; rfl

theorem compressSingle_reject (env : Env) (fs : Fs) (f : UploadedFile)
    (hs : sharp env fs f.path = none) :
    compressSingle env fs f =
      { response := serverError, fs := fs, trace := [Event.sharp f none] } := by
  simp [compressSingle, hs]

theorem compressSingle_unlink_throws (env : Env) (fs : Fs) (f : UploadedFile) (out : Bytes)
    (hs : sharp env fs f.path = some out)
    (hu : unlinkSync env (writeOutput fs (env.uuid ++ ".webp") (Stored.image out)) f.path
      = none) :
    compressSingle env fs f =
      { response := serverError,
        fs := writeOutput fs (env.uuid ++ ".webp") (Stored.image out),
        trace := [Event.sharp f (some out), Event.write (env.uuid ++ ".webp"),
          Event.unlink f.path false] } := by
  simp [compressSingle, hs, hu]

theorem compressSingle_ok (env : Env) (fs fs2 : Fs) (f : UploadedFile) (out : Bytes)
    (hs : sharp env fs f.path = some out)
    (hu : unlinkSync env (writeOutput fs (env.uuid ++ ".webp") (Stored.image out)) f.path
      = some fs2) :
    compressSingle env fs f =
      { response := ⟨200, Body.descriptor "single" (fileUrl env (env.uuid ++ ".webp"))⟩,
        fs := fs2,
        trace := [Event.sharp f (some out), Event.write (env.uuid ++ ".webp"),
          Event.unlink f.path true] } := by
  simp [compressSingle, hs, hu]

/-- A success descriptor comes from the last line of the single branch or of the bulk
branch. -/
theorem compress_success_cases (env : Env) (fs : Fs) (files : Option (List UploadedFile))
    (t url : String) (h : (compress env fs files).response.body = Body.descriptor t url) :
    ((∃ f, files = some [f]) ∧ t = "single" ∧ url = fileUrl env (env.uuid ++ ".webp") ∧
        (compress env fs files).response.status = 200 ∧
        written (compress env fs files).trace = [env.uuid ++ ".webp"] ∧
        ∃ content, (compress env fs files).fs.outputs =
          assign fs.outputs (env.uuid ++ ".webp") content) ∨
      ((∃ f g rest, files = some (f :: g :: rest)) ∧ t = "bulk" ∧
        url = fileUrl env (env.uuid ++ ".zip") ∧
        (compress env fs files).response.status = 200 ∧
        written (compress env fs files).trace = [env.uuid ++ ".zip"] ∧
        ∃ content, (compress env fs files).fs.outputs =
          assign fs.outputs (env.uuid ++ ".zip") content) := by
  match files, h with
  | none, h => simp [compress] at h
  | some [], h => simp [compress] at h
  | some [f], h =>
    left
    simp only [compress] at h ⊢
    cases hs : sharp env fs f.path with
    | none => simp [compressSingle_reject env fs f hs, serverError] at h
    | some out =>
      cases hu : unlinkSync env (writeOutput fs (env.uuid ++ ".webp") (Stored.image out))
          f.path with
      | none => simp [compressSingle_unlink_throws env fs f out hs hu, serverError] at h
      | some fs2 =>
        rw [compressSingle_ok env fs fs2 f out hs hu] at h ⊢
        simp only [Body.descriptor.injEq] at h
        exact ⟨⟨f, rfl⟩, h.1.symm, h.2.symm, rfl, rfl,
          Stored.image out, unlinkSync_writeOutput_outputs hu⟩
  | some (f :: g :: rest), h =>
    right
    obtain ⟨evs, fs1, _, hw, ht, ho, hfs, hr⟩ := compressBulk_spec env fs (f :: g :: rest)
    simp only [compress] at h ⊢
    rw [hr] at h
    simp only [Body.descriptor.injEq] at h
    refine ⟨⟨f, g, rest, rfl⟩, h.1.symm, h.2.symm, by rw [hr], ?_, ?_⟩
    · rw [ht, written_append, hw]; rfl
    · exact ⟨Stored.archive (addAll [] (succeeded evs)), by rw [hfs]; simp [writeOutput, ho]⟩


/-! ## The reference definition: lemmas -/

theorem isExtRun_iff (ext : List Char) : isExtRun ext = true ↔ wordsThenEnd ext = true := by
  rw [wordsThenEnd_iff]
  simp [isExtRun, isWordChar_iff]

theorem entryName_eq_referenceRewrite (s : String) : entryName s = referenceRewrite s := by
  unfold referenceRewrite
  cases hfind : (List.range s.data.length).find?
      (fun i => s.data[i]? == some '.' && isExtRun (s.data.drop (i + 1))) with
  | some i =>
    have hp := List.find?_some hfind
    simp only [Bool.and_eq_true, beq_iff_eq] at hp
    obtain ⟨hget, hrun⟩ := hp
    obtain ⟨hlt, hdot⟩ := List.getElem?_eq_some_iff.1 hget
    have hd : s.data = s.data.take i ++ '.' :: s.data.drop (i + 1) := by
      conv_lhs => rw [← List.take_append_drop i s.data, List.drop_eq_getElem_cons hlt, hdot]
    have key : replaceExt s.data = s.data.take i ++ ".webp".data := by
      conv_lhs => rw [hd]
      exact replaceExt_stem_ext _ _ ((isExtRun_iff _).1 hrun)
    apply String.ext
    simp [entryName, key, String.data_append]
  | none =>
    have hall := List.find?_eq_none.1 hfind
    apply entryName_of_not_hasWordExt
    intro hex
    obtain ⟨stem, ext, hd, hw⟩ := (hasWordExt_iff s).1 hex
    have hmem : stem.length ∈ List.range s.data.length := by
      rw [List.mem_range, hd]; simp
    apply hall stem.length hmem
    simp only [Bool.and_eq_true, beq_iff_eq]
    constructor
    · rw [hd, List.getElem?_append_right (le_refl _)]; simp
    · rw [isExtRun_iff, hd]; simpa using hw


/-! ## What sharp returns in the loop: lemmas -/

theorem sharpCalls_append (a b : List Event) :
    sharpCalls (a ++ b) = sharpCalls a ++ sharpCalls b := by
  induction a with
  | nil => rfl
  | cons e rest ih => cases e <;> simp [sharpCalls, ih]

theorem succeeded_eq_sharpCalls (evs : List Event) :
    succeeded evs = (sharpCalls evs).filterMap accept := by
  induction evs with
  | nil => rfl
  | cons e rest ih =>
    cases e with
    | sharp f r => cases r <;> simp [succeeded, sharpCalls, accept, ih]
    | write n => simp [succeeded, sharpCalls, ih]
    | unlink p ok => simp [succeeded, sharpCalls, ih]
    | log n => simp [succeeded, sharpCalls, ih]

theorem lookup_filter_ne {α : Type} (l : List (String × α)) (path p : String) :
    (l.filter (fun e => e.1 != path)).lookup p = if p = path then none else l.lookup p := by
  induction l with
  | nil => simp [List.lookup]
  | cons e rest ih =>
    obtain ⟨a, b⟩ := e
    by_cases hap : a = path
    · subst hap
      by_cases hp : p = a
      · subst hp; simpa using ih
      · simp [List.filter, lookup_cons_ne hp, ih, hp]
    · have hne : (a != path) = true := by simpa using hap
      by_cases hp : p = a
      · subst hp; simp [List.filter, hne, lookup_cons_eq, hap]
      · simp [List.filter, hne, lookup_cons_ne hp, ih]

theorem deletedBy_snoc (env : Env) (fs : Fs) (before : List UploadedFile) (f : UploadedFile)
    (p : String) :
    deletedBy env fs (before ++ [f]) p =
      (deletedBy env fs before p ||
        (f.path == p && (sharp env fs f.path).isSome && !env.unlinkDenied f.path)) := by
  simp [deletedBy, List.any_append]

theorem sharp_of_uploadsAfter {env : Env} {fs : Fs} {before : List UploadedFile}
    {st : LoopState} (h : UploadsAfter env fs before st) (f : UploadedFile) :
    sharp env st.fs f.path = sharpAt env fs before f := by
  unfold sharp sharpAt
  rw [h f.path]
  by_cases hd : deletedBy env fs before f.path = true
  · simp [hd]
  · simp [hd, sharp]

theorem bulkStep_outcome (env : Env) (fs : Fs) (before : List UploadedFile) (st : LoopState)
    (f : UploadedFile) (h : UploadsAfter env fs before st) :
    (∃ evs, (bulkStep env st f).trace = st.trace ++ evs ∧
        sharpCalls evs = [(f, sharpAt env fs before f)]) ∧
      UploadsAfter env fs (before ++ [f]) (bulkStep env st f) := by
  have hsh := sharp_of_uploadsAfter h f
  unfold bulkStep
  cases hs : sharp env st.fs f.path with
  | none =>
    rw [hs] at hsh
    refine ⟨⟨_, rfl, by simp [sharpCalls, ← hsh]⟩, ?_⟩
    intro p
    show st.fs.uploads.lookup p = _
    rw [h p, deletedBy_snoc]
    by_cases hd : deletedBy env fs before p = true
    · simp [hd]
    · by_cases hp : f.path = p
      · subst hp
        have : sharp env fs f.path = none := by
          simpa [sharpAt, hd] using hsh.symm
        simp [hd, this]
      · simp [hd, hp]
  | some buffer =>
    rw [hs] at hsh
    have hex : existsSync st.fs f.path = true := by
      unfold sharp at hs
      unfold existsSync
      cases hl : st.fs.uploads.lookup f.path with
      | none => simp [hl] at hs
      | some c => rfl
    have hnd : ¬ deletedBy env fs before f.path = true := by
      intro hd; simp [sharpAt, hd] at hsh
    have hsome : sharp env fs f.path = some buffer := by
      simpa [sharpAt, hnd] using hsh.symm
    by_cases hden : env.unlinkDenied f.path = true
    · have hu : unlinkSync env st.fs f.path = none := by simp [unlinkSync, hden]
      simp only [hu]
      refine ⟨⟨_, rfl, by simp [sharpCalls, ← hsh]⟩, ?_⟩
      intro p
      show st.fs.uploads.lookup p = _
      rw [h p, deletedBy_snoc]
      simp [hden]
    · have hu : unlinkSync env st.fs f.path =
          some { st.fs with uploads := st.fs.uploads.filter (fun e => e.1 != f.path) } := by
        simp [unlinkSync, hex, hden]
      simp only [hu]
      refine ⟨⟨_, rfl, by simp [sharpCalls, ← hsh]⟩, ?_⟩
      intro p
      show (st.fs.uploads.filter (fun e => e.1 != f.path)).lookup p = _
      rw [lookup_filter_ne, h p, deletedBy_snoc]
      by_cases hp : p = f.path
      · subst hp; simp [hsome, hden]
      · have hp2 : ¬ f.path = p := fun e => hp e.symm
        simp [hp, hp2]

theorem bulkLoop_outcomes (env : Env) (fs : Fs) (files before : List UploadedFile)
    (st : LoopState) (h : UploadsAfter env fs before st) :
    ∃ evs, (bulkLoop env files st).trace = st.trace ++ evs ∧
      sharpCalls evs = outcomes env fs before files := by
  induction files generalizing before st with
  | nil => exact ⟨[], by simp [bulkLoop], rfl⟩
  | cons f rest ih =>
    obtain ⟨⟨e1, ht1, hc1⟩, hinv⟩ := bulkStep_outcome env fs before st f h
    obtain ⟨e2, ht2, hc2⟩ := ih (before ++ [f]) (bulkStep env st f) hinv
    refine ⟨e1 ++ e2, by simp [bulkLoop, ht2, ht1], ?_⟩
    rw [sharpCalls_append, hc1, hc2]; rfl

theorem deletedBy_mem {env : Env} {fs : Fs} {before : List UploadedFile} {p : String}
    (h : deletedBy env fs before p = true) : p ∈ before.map (fun g => g.path) := by
  simp only [deletedBy, List.any_eq_true, Bool.and_eq_true, beq_iff_eq] at h
  obtain ⟨g, hg, ⟨⟨hp, _⟩, _⟩⟩ := h
  exact List.mem_map.2 ⟨g, hg, hp⟩

theorem outcomes_of_distinct (env : Env) (fs : Fs) (files before : List UploadedFile)
    (hnd : ((before ++ files).map (fun g => g.path)).Nodup) :
    outcomes env fs before files = files.map (fun f => (f, sharp env fs f.path)) := by
  induction files generalizing before with
  | nil => rfl
  | cons f rest ih =>
    have hf : ¬ deletedBy env fs before f.path = true := by
      intro hd
      have hmem := deletedBy_mem hd
      rw [List.map_append, List.nodup_append] at hnd
      exact hnd.2.2 hmem (by simp)
    have hrest : (((before ++ [f]) ++ rest).map (fun g => g.path)).Nodup := by
      simpa using hnd
    simp only [outcomes, sharpAt, hf, if_false, Bool.false_eq_true, List.map_cons,
      ih (before ++ [f]) hrest]

theorem accepted_of_distinct (env : Env) (fs : Fs) (files : List UploadedFile)
    (hnd : (files.map (fun g => g.path)).Nodup) :
    accepted env fs files =
      files.filterMap (fun f => (sharp env fs f.path).map (fun out => (f, out))) := by
  unfold accepted
  rw [outcomes_of_distinct env fs files [] (by simpa using hnd), List.filterMap_map]
  rfl

/-- The bulk branch in terms of sharp: sharp is called on every upload in order, and the
archive written after the loop is built from the uploads it accepts. -/
theorem compressBulk_accepted (env : Env) (fs : Fs) (files : List UploadedFile) :
    sharpCalls (compressBulk env fs files).trace = outcomes env fs [] files ∧
      written (compressBulk env fs files).trace = [env.uuid ++ ".zip"] ∧
      (compressBulk env fs files).fs.outputs =
        assign fs.outputs (env.uuid ++ ".zip") (Stored.archive (addAll [] (accepted env fs files))) ∧
      archiveAt (compressBulk env fs files).fs (env.uuid ++ ".zip") =
        some (addAll [] (accepted env fs files)) ∧
      (compressBulk env fs files).response =
        ⟨200, Body.descriptor "bulk" (fileUrl env (env.uuid ++ ".zip"))⟩ := by
  obtain ⟨evs, fs1, _, hw, ht, ho, hfs, hr⟩ := compressBulk_spec env fs files
  obtain ⟨evs2, ht2, hc2⟩ := bulkLoop_outcomes env fs files []
    { zip := [], fs := fs, trace := [] } (by intro p; simp [deletedBy])
  have hevs : evs2 = evs := by
    have h1 : (compressBulk env fs files).trace = evs2 ++ [Event.write (env.uuid ++ ".zip")] := by
      simp [compressBulk, ht2]
    rw [ht] at h1
    exact (List.append_cancel_right h1).symm
  subst hevs
  have hacc : succeeded evs2 = accepted env fs files := by
    rw [succeeded_eq_sharpCalls, hc2]; rfl
  refine ⟨?_, ?_, ?_, ?_, hr⟩
  · rw [ht, sharpCalls_append, hc2]; simp [sharpCalls]
  · rw [ht, written_append, hw]; rfl
  · rw [hfs, hacc]; simp [writeOutput, ho]
  · rw [hfs, hacc]; exact archiveAt_writeOutput _ _ _

theorem outcomes_map_fst (env : Env) (fs : Fs) (before files : List UploadedFile) :
    (outcomes env fs before files).map Prod.fst = files := by
  induction files generalizing before with
  | nil => rfl
  | cons f rest ih => simp [outcomes, ih]

/-! ## The claims -/

/-- C1, as stated, fails: in a request of two uploads that sharp both rejects, the handler
answers 200 with a `bulk` descriptor and stores an archive without entries, instead of
answering 400 and leaving the output directory alone. -/
theorem all_rejected_counterexample :
    (∀ f ∈ [corruptA, corruptB], sharp sampleEnv sampleFs f.path = none) ∧
      (compress sampleEnv sampleFs (some [corruptA, corruptB])).response =
        ⟨200, Body.descriptor "bulk" "http://h/files/id.zip"⟩ ∧
      archiveAt (compress sampleEnv sampleFs (some [corruptA, corruptB])).fs "id.zip" =
        some [] ∧
      ¬ ((compress sampleEnv sampleFs (some [corruptA, corruptB])).response.status = 400 ∧
        (compress sampleEnv sampleFs (some [corruptA, corruptB])).fs.outputs =
          sampleFs.outputs) := by
  decide

/-- C1, amended: when sharp rejects every upload of a request of two or more, the handler
does not fail the request: it answers 200 with a `bulk` descriptor and writes exactly one
object to the output directory, an archive without entries under the generated name; the
output directory is otherwise as before. -/
theorem all_rejected_writes_empty_archive (env : Env) (fs : Fs) (file next : UploadedFile)
    (rest : List UploadedFile)
    (h : ∀ f ∈ file :: next :: rest, sharp env fs f.path = none) :
    (compress env fs (some (file :: next :: rest))).response =
        ⟨200, Body.descriptor "bulk" (fileUrl env (env.uuid ++ ".zip"))⟩ ∧
      written (compress env fs (some (file :: next :: rest))).trace = [env.uuid ++ ".zip"] ∧
      (compress env fs (some (file :: next :: rest))).fs.outputs =
        assign fs.outputs (env.uuid ++ ".zip") (Stored.archive []) ∧
      archiveAt (compress env fs (some (file :: next :: rest))).fs (env.uuid ++ ".zip") =
        some [] := by
  obtain ⟨hz, hfs, _, hw, _⟩ :=
    bulkLoop_all_fail env (file :: next :: rest) { zip := [], fs := fs, trace := [] } h
  refine ⟨rfl, ?_, ?_, ?_⟩
  · simp only [compress, compressBulk, written_append, hw]
    simp [written]
  · simp only [compress, compressBulk, hz, hfs, writeOutput]
  · simp only [compress, compressBulk, hz, hfs]
    exact archiveAt_writeOutput _ _ _

/-- The amended C1 at the sample request of two rejected uploads. -/
theorem all_rejected_writes_empty_archive_witness :
    (∀ f ∈ [corruptA, corruptB], sharp sampleEnv sampleFs f.path = none) ∧
    (compress sampleEnv sampleFs (some [corruptA, corruptB])).response =
        ⟨200, Body.descriptor "bulk" (fileUrl sampleEnv (sampleEnv.uuid ++ ".zip"))⟩ ∧
      written (compress sampleEnv sampleFs (some [corruptA, corruptB])).trace =
        [sampleEnv.uuid ++ ".zip"] ∧
      (compress sampleEnv sampleFs (some [corruptA, corruptB])).fs.outputs =
        assign sampleFs.outputs (sampleEnv.uuid ++ ".zip") (Stored.archive []) ∧
      archiveAt (compress sampleEnv sampleFs (some [corruptA, corruptB])).fs
        (sampleEnv.uuid ++ ".zip") = some [] :=
  ⟨by decide,
    all_rejected_writes_empty_archive sampleEnv sampleFs corruptA corruptB [] (by decide)⟩

/-- C2 fails on the code: the deletion comes after the transcode inside the same `try`, so
the temporary file of an upload that sharp rejects is still there when the handler has
answered, in the bulk loop (first two lines) and in the single branch (last two). -/
theorem rejected_upload_survives :
    (compress sampleEnv sampleFs (some [corruptA, goodA])).response =
        ⟨200, Body.descriptor "bulk" "http://h/files/id.zip"⟩ ∧
      existsSync (compress sampleEnv sampleFs (some [corruptA, goodA])).fs corruptA.path
        = true ∧
      existsSync (compress sampleEnv sampleFs (some [corruptA, goodA])).fs goodA.path
        = false ∧
      (compress sampleEnv sampleFs (some [corruptA])).response =
        ⟨500, Body.error "Server error"⟩ ∧
      existsSync (compress sampleEnv sampleFs (some [corruptA])).fs corruptA.path = true := by
  decide

/-- C3, as stated, fails: two uploads named `photo.png` that both transcode give an archive
with one entry, `photo.webp`, holding the output of the second. -/
theorem same_name_counterexample :
    (sharp sampleEnv sampleFs goodA.path = some [2, 1] ∧
        sharp sampleEnv sampleFs goodB.path = some [4, 3]) ∧
      succeeded (compress sampleEnv sampleFs (some [goodA, goodB])).trace =
        [(goodA, [2, 1]), (goodB, [4, 3])] ∧
      (compress sampleEnv sampleFs (some [goodA, goodB])).response =
        ⟨200, Body.descriptor "bulk" "http://h/files/id.zip"⟩ ∧
      archiveAt (compress sampleEnv sampleFs (some [goodA, goodB])).fs "id.zip" =
        some [("photo.webp", [4, 3])] ∧
      ¬ ∃ zip, archiveAt (compress sampleEnv sampleFs (some [goodA, goodB])).fs "id.zip" =
          some zip ∧
        zip.length = (succeeded (compress sampleEnv sampleFs (some [goodA, goodB])).trace).length := by
  refine ⟨by decide, by decide, by decide, by decide, ?_⟩
  rintro ⟨zip, hz, hl⟩
  have h1 : archiveAt (compress sampleEnv sampleFs (some [goodA, goodB])).fs "id.zip" =
      some [("photo.webp", [4, 3])] := by decide
  have h2 : (succeeded (compress sampleEnv sampleFs (some [goodA, goodB])).trace).length = 2 := by
    decide
  rw [h1] at hz
  cases hz
  rw [h2] at hl
  exact absurd hl (by decide)

/-- C3, amended: a request of two or more uploads is answered with a `bulk` descriptor, and
the archive written under the generated name has pairwise distinct entry names and
exactly one entry per distinct derived name among the uploads that sharp transcodes
successfully; so it has at most as many entries as successes, as many when the derived
names of the successes are pairwise distinct, at least one when there is a success, and
one single entry for successes that share a derived name. The successes are the uploads
that sharp accepts when the loop reaches them; when the temporary paths of the request
are pairwise distinct, they are the uploads whose file, as it came in, sharp accepts. -/
theorem bulk_entry_count (env : Env) (fs : Fs) (file next : UploadedFile)
    (rest : List UploadedFile) :
    (compress env fs (some (file :: next :: rest))).response =
        ⟨200, Body.descriptor "bulk" (fileUrl env (env.uuid ++ ".zip"))⟩ ∧
      (∃ zip, archiveAt (compress env fs (some (file :: next :: rest))).fs (env.uuid ++ ".zip")
          = some zip ∧
        (zip.map Prod.fst).Nodup ∧
        zip.length =
          (((accepted env fs (file :: next :: rest)).map
            (fun s => entryName s.1.originalname)).dedup).length ∧
        zip.length ≤ (accepted env fs (file :: next :: rest)).length ∧
        (((accepted env fs (file :: next :: rest)).map
            (fun s => entryName s.1.originalname)).Nodup →
          zip.length = (accepted env fs (file :: next :: rest)).length) ∧
        (accepted env fs (file :: next :: rest) ≠ [] → zip ≠ []) ∧
        (∀ s ∈ accepted env fs (file :: next :: rest),
          (zip.map Prod.fst).count (entryName s.1.originalname) = 1)) ∧
      (((file :: next :: rest).map (fun g => g.path)).Nodup →
        accepted env fs (file :: next :: rest) =
          (file :: next :: rest).filterMap
            (fun f => (sharp env fs f.path).map (fun out => (f, out)))) := by
  obtain ⟨_, _, _, harch, hr⟩ := compressBulk_accepted env fs (file :: next :: rest)
  refine ⟨hr, ⟨addAll [] (accepted env fs (file :: next :: rest)), harch,
    nodup_keys_addAll _, length_addAll _, ?_, ?_, ?_, ?_⟩,
    accepted_of_distinct env fs (file :: next :: rest)⟩
  · rw [length_addAll]
    calc ((accepted env fs (file :: next :: rest)).map
            (fun s => entryName s.1.originalname)).dedup.length
        ≤ ((accepted env fs (file :: next :: rest)).map
            (fun s => entryName s.1.originalname)).length :=
          (List.dedup_sublist _).length_le
      _ = (accepted env fs (file :: next :: rest)).length := List.length_map _ _
  · intro hnd
    rw [length_addAll, hnd.dedup, List.length_map]
  · intro hne hnil
    obtain ⟨s, l, hsl⟩ := List.exists_cons_of_ne_nil hne
    have hmem : entryName s.1.originalname ∈
        (addAll [] (accepted env fs (file :: next :: rest))).map Prod.fst :=
      (mem_keys_addAll _ _).2 ⟨s, by simp [hsl], rfl⟩
    rw [hnil] at hmem
    simp at hmem
  · intro s hs
    exact List.count_eq_one_of_mem (nodup_keys_addAll _)
      ((mem_keys_addAll _ _).2 ⟨s, hs, rfl⟩)

/-- C4 fails on the code in the single branch: there `fs.unlinkSync` is called outside any
inner `try`, so when it throws the outer `catch` answers 500 although the output has been
written, while the same request is answered with the `single` descriptor when the deletion
succeeds. The bulk loop does swallow the throw: its response is the same either way. -/
theorem single_unlink_throw_surfaces :
    (compress sampleEnv sampleFs (some [goodA])).response =
        ⟨200, Body.descriptor "single" "http://h/files/id.webp"⟩ ∧
      (compress deniedEnv sampleFs (some [goodA])).response =
        ⟨500, Body.error "Server error"⟩ ∧
      written (compress deniedEnv sampleFs (some [goodA])).trace = ["id.webp"] ∧
      (compress deniedEnv sampleFs (some [goodA])).fs.outputs =
        [("old.webp", Stored.image [9]), ("id.webp", Stored.image [2, 1])] ∧
      (compress deniedEnv sampleFs (some [goodA, goodB])).response =
        (compress sampleEnv sampleFs (some [goodA, goodB])).response := by
  decide

/-- C5: when sharp rejects the only upload of a request, the handler answers with the error
of the outer `catch` (status 500, an error body, no descriptor), writes nothing, and leaves
the output directory (indeed both directories) as before. -/
theorem single_rejected_fails (env : Env) (fs : Fs) (file : UploadedFile)
    (h : sharp env fs file.path = none) :
    (compress env fs (some [file])).response = ⟨500, Body.error "Server error"⟩ ∧
      (∀ t url, (compress env fs (some [file])).response.body ≠ Body.descriptor t url) ∧
      (compress env fs (some [file])).fs.outputs = fs.outputs ∧
      (compress env fs (some [file])).fs = fs ∧
      written (compress env fs (some [file])).trace = [] := by
  simp only [compress]
  rw [compressSingle_reject env fs file h]
  simp [serverError, written]

/-- C5 at the sample request of one rejected upload. -/
theorem single_rejected_fails_witness :
    sharp sampleEnv sampleFs corruptA.path = none ∧
      (compress sampleEnv sampleFs (some [corruptA])).response =
        ⟨500, Body.error "Server error"⟩ ∧
      (∀ t url, (compress sampleEnv sampleFs (some [corruptA])).response.body
        ≠ Body.descriptor t url) ∧
      (compress sampleEnv sampleFs (some [corruptA])).fs.outputs = sampleFs.outputs ∧
      (compress sampleEnv sampleFs (some [corruptA])).fs = sampleFs ∧
      written (compress sampleEnv sampleFs (some [corruptA])).trace = [] :=
  ⟨by decide, single_rejected_fails sampleEnv sampleFs corruptA (by decide)⟩

/-- C6, as stated, fails: an upload named `photo`, without extension, transcodes
successfully in a request of two, and its archive entry is named `photo`, which does
not end in `.webp`. -/
theorem no_extension_counterexample :
    sharp sampleEnv sampleFs noExt.path = some [5] ∧
      (noExt, [5]) ∈ succeeded (compress sampleEnv sampleFs (some [noExt, goodA])).trace ∧
      archiveAt (compress sampleEnv sampleFs (some [noExt, goodA])).fs "id.zip" =
        some [("photo", [5]), ("photo.webp", [2, 1])] ∧
      entryName noExt.originalname = "photo" ∧
      ¬ ".webp".data <:+ (entryName noExt.originalname).data := by
  decide

/-- C6, amended: in a request of two or more uploads, every upload that sharp transcodes
successfully has an entry in the archive under the name derived from its original name;
when the original name is a stem, a dot and a non-empty run of characters of
`[A-Za-z0-9_]`, the derived name is the stem followed by `.webp`; any other original name
is used unchanged; and the derived name ends in `.webp` exactly in the first case. -/
theorem entry_name_of_success (env : Env) (fs : Fs) (file next : UploadedFile)
    (rest : List UploadedFile) (f : UploadedFile) (out : Bytes)
    (h : (f, out) ∈ accepted env fs (file :: next :: rest)) :
    (∃ zip, archiveAt (compress env fs (some (file :: next :: rest))).fs (env.uuid ++ ".zip")
        = some zip ∧ entryName f.originalname ∈ zip.map Prod.fst) ∧
      (∀ stem ext : String, f.originalname = stem ++ "." ++ ext → ext ≠ "" →
        (∀ c ∈ ext.data, inExtClass c) → entryName f.originalname = stem ++ ".webp") ∧
      (¬ HasWordExt f.originalname → entryName f.originalname = f.originalname) ∧
      (".webp".data <:+ (entryName f.originalname).data ↔ HasWordExt f.originalname) := by
  obtain ⟨_, _, _, harch, _⟩ := compressBulk_accepted env fs (file :: next :: rest)
  refine ⟨⟨addAll [] (accepted env fs (file :: next :: rest)), harch,
    (mem_keys_addAll _ _).2 ⟨(f, out), h, rfl⟩⟩, ?_,
    entryName_of_not_hasWordExt _, entryName_suffix_iff _⟩
  intro stem ext hs hne hall
  rw [hs]; exact entryName_stem_ext stem ext hne hall

/-- The amended C6 at the sample request of two uploads named `photo.png`: sharp accepts
the first and returns its content reversed. -/
theorem entry_name_of_success_witness :
    sharp sampleEnv sampleFs goodA.path = some [2, 1] ∧
      (goodA, [2, 1]) ∈ accepted sampleEnv sampleFs [goodA, goodB] ∧
      ((∃ zip, archiveAt (compress sampleEnv sampleFs (some [goodA, goodB])).fs
          (sampleEnv.uuid ++ ".zip") = some zip ∧
          entryName goodA.originalname ∈ zip.map Prod.fst) ∧
        (∀ stem ext : String, goodA.originalname = stem ++ "." ++ ext → ext ≠ "" →
          (∀ c ∈ ext.data, inExtClass c) → entryName goodA.originalname = stem ++ ".webp") ∧
        (¬ HasWordExt goodA.originalname →
          entryName goodA.originalname = goodA.originalname) ∧
        (".webp".data <:+ (entryName goodA.originalname).data ↔
          HasWordExt goodA.originalname)) :=
  ⟨by decide, by decide,
    entry_name_of_success sampleEnv sampleFs goodA goodB [] goodA [2, 1] (by decide)⟩

/-- C7: when the handler answers with a success descriptor, the status is 200, exactly one
object was written to the output directory, under the generated identifier followed by
`.webp` for a request of one upload (type `single`) and by `.zip` for a request of two or
more (type `bulk`); the url is protocol, `://`, host, `/files/` and that name; and the
name is the same for every successful request with the same identifier and as many
uploads, whatever their original names and temporary paths. -/
theorem success_writes_one_generated_name (env : Env) (fs : Fs)
    (files : Option (List UploadedFile)) (t url : String)
    (h : (compress env fs files).response.body = Body.descriptor t url) :
    ∃ name content,
      (compress env fs files).response.status = 200 ∧
      written (compress env fs files).trace = [name] ∧
      (compress env fs files).fs.outputs = assign fs.outputs name content ∧
      url = env.protocol ++ "://" ++ env.host ++ "/files/" ++ name ∧
      (((∃ f, files = some [f]) ∧ t = "single" ∧ name = env.uuid ++ ".webp") ∨
        ((∃ f g rest, files = some (f :: g :: rest)) ∧ t = "bulk" ∧
          name = env.uuid ++ ".zip")) ∧
      ∀ (fs2 : Fs) (files2 : Option (List UploadedFile)) (t2 url2 : String),
        (files2.getD []).length = (files.getD []).length →
        (compress env fs2 files2).response.body = Body.descriptor t2 url2 →
        written (compress env fs2 files2).trace = [name] := by
  rcases compress_success_cases env fs files t url h with
    ⟨⟨f, hf⟩, ht, hu, hst, hw, content, ho⟩ | ⟨⟨f, g, rest, hf⟩, ht, hu, hst, hw, content, ho⟩
  · refine ⟨env.uuid ++ ".webp", content, hst, hw, ho, hu, Or.inl ⟨⟨f, hf⟩, ht, rfl⟩, ?_⟩
    intro fs2 files2 t2 url2 hlen h2
    rcases compress_success_cases env fs2 files2 t2 url2 h2 with
      ⟨_, _, _, _, hw2, _⟩ | ⟨⟨f2, g2, rest2, hf2⟩, _⟩
    · exact hw2
    · rw [hf, hf2] at hlen; simp at hlen
  · refine ⟨env.uuid ++ ".zip", content, hst, hw, ho, hu, Or.inr ⟨⟨f, g, rest, hf⟩, ht, rfl⟩, ?_⟩
    intro fs2 files2 t2 url2 hlen h2
    rcases compress_success_cases env fs2 files2 t2 url2 h2 with
      ⟨⟨f2, hf2⟩, _⟩ | ⟨_, _, _, _, hw2, _⟩
    · rw [hf, hf2] at hlen; simp at hlen
    · exact hw2

/-- C7 at the sample request of one decodable upload. -/
theorem success_writes_one_generated_name_witness :
    (compress sampleEnv sampleFs (some [goodA])).response.body =
        Body.descriptor "single" "http://h/files/id.webp" ∧
      ∃ name content,
        (compress sampleEnv sampleFs (some [goodA])).response.status = 200 ∧
        written (compress sampleEnv sampleFs (some [goodA])).trace = [name] ∧
        (compress sampleEnv sampleFs (some [goodA])).fs.outputs =
          assign sampleFs.outputs name content ∧
        "http://h/files/id.webp" =
          sampleEnv.protocol ++ "://" ++ sampleEnv.host ++ "/files/" ++ name ∧
        (((∃ f, some [goodA] = some [f]) ∧ "single" = "single" ∧
            name = sampleEnv.uuid ++ ".webp") ∨
          ((∃ f g rest, some [goodA] = some (f :: g :: rest)) ∧ "single" = "bulk" ∧
            name = sampleEnv.uuid ++ ".zip")) ∧
        ∀ (fs2 : Fs) (files2 : Option (List UploadedFile)) (t2 url2 : String),
          (files2.getD []).length = ((some [goodA]).getD []).length →
          (compress sampleEnv fs2 files2).response.body = Body.descriptor t2 url2 →
          written (compress sampleEnv fs2 files2).trace = [name] :=
  ⟨by decide,
    success_writes_one_generated_name sampleEnv sampleFs (some [goodA]) "single"
      "http://h/files/id.webp" (by decide)⟩

/-- C8: when `req.files` is absent or empty, the handler answers 400 with the error body
`No files uploaded`, invokes sharp on nothing (it does nothing at all), and leaves the
upload directory and the output directory unchanged. -/
theorem no_files_rejected (env : Env) (fs : Fs) (files : Option (List UploadedFile))
    (h : files = none ∨ files = some []) :
    (compress env fs files).response = ⟨400, Body.error "No files uploaded"⟩ ∧
      attempted (compress env fs files).trace = [] ∧
      (compress env fs files).trace = [] ∧
      (compress env fs files).fs.outputs = fs.outputs ∧
      (compress env fs files).fs.uploads = fs.uploads := by
  rcases h with h | h <;> subst h <;> simp [compress, attempted]

/-- C8 at a request without files and at a request with an empty list. -/
theorem no_files_rejected_witness :
    ((compress sampleEnv sampleFs none).response = ⟨400, Body.error "No files uploaded"⟩ ∧
        attempted (compress sampleEnv sampleFs none).trace = [] ∧
        (compress sampleEnv sampleFs none).trace = [] ∧
        (compress sampleEnv sampleFs none).fs.outputs = sampleFs.outputs ∧
        (compress sampleEnv sampleFs none).fs.uploads = sampleFs.uploads) ∧
      ((compress sampleEnv sampleFs (some [])).response =
          ⟨400, Body.error "No files uploaded"⟩ ∧
        attempted (compress sampleEnv sampleFs (some [])).trace = [] ∧
        (compress sampleEnv sampleFs (some [])).trace = [] ∧
        (compress sampleEnv sampleFs (some [])).fs.outputs = sampleFs.outputs ∧
        (compress sampleEnv sampleFs (some [])).fs.uploads = sampleFs.uploads) :=
  ⟨no_files_rejected sampleEnv sampleFs none (Or.inl rfl),
    no_files_rejected sampleEnv sampleFs (some []) (Or.inr rfl)⟩

/-- C9: in a request of two or more uploads a rejection by sharp neither stops the loop nor
fails the request: the answer is the `bulk` descriptor; sharp is called on every upload
of the list, in order, and returns for each what it makes of the temporary file at that
moment; the archive written under the generated name has as entry names exactly the
derived names of the uploads that sharp transcodes successfully, each entry holding the
output of sharp for the last such upload, in input order, with that derived name. When
the temporary paths of the request are pairwise distinct, the successful uploads are the
ones whose file, as it came in, sharp accepts. -/
theorem bulk_archive_exact (env : Env) (fs : Fs) (file next : UploadedFile)
    (rest : List UploadedFile) :
    (compress env fs (some (file :: next :: rest))).response =
        ⟨200, Body.descriptor "bulk" (fileUrl env (env.uuid ++ ".zip"))⟩ ∧
      sharpCalls (compress env fs (some (file :: next :: rest))).trace =
        outcomes env fs [] (file :: next :: rest) ∧
      (outcomes env fs [] (file :: next :: rest)).map Prod.fst = file :: next :: rest ∧
      (∃ zip, archiveAt (compress env fs (some (file :: next :: rest))).fs (env.uuid ++ ".zip")
          = some zip ∧
        (∀ n, n ∈ zip.map Prod.fst ↔
          ∃ s ∈ accepted env fs (file :: next :: rest), entryName s.1.originalname = n) ∧
        (∀ n b, (n, b) ∈ zip ↔
          lastSuccess (accepted env fs (file :: next :: rest)) n = some b)) ∧
      (((file :: next :: rest).map (fun g => g.path)).Nodup →
        accepted env fs (file :: next :: rest) =
          (file :: next :: rest).filterMap
            (fun f => (sharp env fs f.path).map (fun out => (f, out)))) := by
  obtain ⟨hcalls, _, _, harch, hr⟩ := compressBulk_accepted env fs (file :: next :: rest)
  refine ⟨hr, hcalls, outcomes_map_fst env fs _ _,
    ⟨addAll [] (accepted env fs (file :: next :: rest)), harch, ?_, ?_⟩,
    accepted_of_distinct env fs (file :: next :: rest)⟩
  · intro n; exact mem_keys_addAll _ n
  · intro n b; exact mem_addAll _ n b

/-- C10: the rewrite agrees with the reference definition on every string: a name of the form
stem, dot, non-empty run of characters of `[A-Za-z0-9_]` up to the end becomes the stem
followed by `.webp` (only the last such suffix is replaced: `a.tar.gz` gives
`a.tar.webp`), any other name is returned unchanged; and the rewrite is idempotent. -/
theorem entryName_reference (s : String) :
    entryName s = referenceRewrite s ∧
    (∀ stem ext : String, s = stem ++ "." ++ ext → ext ≠ "" →
        (∀ c ∈ ext.data, inExtClass c) → entryName s = stem ++ ".webp") ∧
      (¬ HasWordExt s → entryName s = s) ∧
      entryName "a.tar.gz" = "a.tar.webp" ∧
      entryName (entryName s) = entryName s := by
  refine ⟨entryName_eq_referenceRewrite s, ?_, entryName_of_not_hasWordExt s, by decide,
    entryName_idem s⟩
  intro stem ext hs hne hall
  rw [hs]; exact entryName_stem_ext stem ext hne hall

end Compressor
